import Mathlib

/-!
Verification of the overlap-detection and cascade-merge engine of the uwp
repository (update of water polygons).

The development shallowly embeds the core functions of the repository:

* the overlap selector select_overlap together with the MutexProtectedSet of
  claimed overlay polygons,
* the area-ordered cascade union cascade_union with its priority queue
  ordered by CompareArea,
* the merge applier merge_overlapping, and
* the chunk splitter parallel_for.

Geometric primitives (boost geometry intersects, within, union_, area) are
external collaborators of the repository; they are modelled as opaque-function
fields of small environment structures, so every theorem below quantifies over
all possible behaviours of the geometry library.  Polygons are addressed by
identity: a natural number stands for the address of a polygon (the C++ code
keys its dedup set on const Polygon pointers), and in the cascade and merge
models a type parameter P stands for the polygon value type.

The execution model is the sequential semantics of the code (num_threads = 1,
a single chunk): stateful C++ loops become folds which thread the claimed set
and the accumulators explicitly.  The model for the multi-thread selection run
of claim C7 additionally lets the base polygons be processed in an arbitrary
order.
-/

namespace UWP

/-- Environment of the overlap selector, modelled from select_overlap in the
repository.  The field n is the number of base (water) polygons; query ix is
the list of overlay (area) polygon identities returned by the RTree query for
the envelope of base polygon ix; inter ix a models
bg::intersects(water[ix], polygon a); within a ix models
bg::within(polygon a, water[ix]). -/
structure SelectEnv where
  n : Nat
  query : Nat → List Nat
  inter : Nat → Nat → Bool
  within : Nat → Nat → Bool

/-- One iteration of the candidate loop of select_overlap.  The state is the
pair (claimed, matches): claimed models the MutexProtectedSet
filtered_polygons, matches models the vector matching_areas.  Mirrors the
source: skip when filtered_polygons.contains(item.second); skip when the
candidate does not intersect the base polygon or is within it; otherwise
insert into the set and, when the insert reports success, append the candidate
to the match list. -/
def candStep (env : SelectEnv) (ix : Nat) (st : List Nat × List Nat) (a : Nat) :
    List Nat × List Nat :=
  if a ∈ st.1 then st
  else if env.inter ix a = false ∨ env.within a ix = true then st
  else if a ∈ st.1 then st
  else (a :: st.1, st.2 ++ [a])

/-- Processing of one base polygon ix of select_overlap: fold the candidate
loop over the RTree query result, starting from the current claimed set and an
empty match list. -/
def selectBase (env : SelectEnv) (claimed : List Nat) (ix : Nat) :
    List Nat × List Nat :=
  (env.query ix).foldl (candStep env ix) (claimed, [])

/-- Processing of one base polygon inside the outer loop of select_overlap:
records gain the pair (ix, matches) when the match list is non-empty. -/
def selectStep (env : SelectEnv) (st : List (Nat × List Nat) × List Nat)
    (ix : Nat) : List (Nat × List Nat) × List Nat :=
  let r := selectBase env st.2 ix
  if r.2 = [] then (st.1, r.1) else (st.1 ++ [(ix, r.2)], r.1)

/-- A whole selection pass over the base indices listed in order, starting
from an empty record list and an empty claimed set. -/
def selectRun (env : SelectEnv) (order : List Nat) :
    List (Nat × List Nat) × List Nat :=
  order.foldl (selectStep env) ([], [])

/-- The selection pass of the repository: base polygons are processed in index
order 0, 1, ..., n-1 (the sequential semantics of select_overlap). -/
def select_overlap (env : SelectEnv) : List (Nat × List Nat) :=
  (selectRun env (List.range env.n)).1

/-- A candidate a passes the geometric filter of base polygon ix when it truly
intersects the base polygon and is not fully contained in it. -/
def passFilter (env : SelectEnv) (ix a : Nat) : Prop :=
  env.inter ix a = true ∧ env.within a ix = false

instance (env : SelectEnv) (ix a : Nat) : Decidable (passFilter env ix a) :=
  inferInstanceAs (Decidable (_ ∧ _))

/-- A candidate a is a claimable candidate of base polygon ix: it is returned
by the RTree query for ix and passes the geometric filter. -/
def passB (env : SelectEnv) (ix a : Nat) : Prop :=
  a ∈ env.query ix ∧ passFilter env ix a

instance (env : SelectEnv) (ix a : Nat) : Decidable (passB env ix a) :=
  inferInstanceAs (Decidable (_ ∧ _))

/-- The canonical match list of base polygon ix: what selectBase produces when
no overlay polygon has been claimed yet. -/
def canonMatches (env : SelectEnv) (ix : Nat) : List Nat :=
  (selectBase env [] ix).2

/-- No genuinely ambiguous shared candidate: no overlay polygon is a claimable
candidate (true intersection, not contained) of two different base polygons.
This is the hypothesis of the determinism claim. -/
def NoSharedCandidate (env : SelectEnv) : Prop :=
  ∀ w1 ∈ List.range env.n, ∀ w2 ∈ List.range env.n, w1 ≠ w2 →
    ∀ a ∈ env.query w1, passB env w1 a → ¬ passB env w2 a

instance (env : SelectEnv) : Decidable (NoSharedCandidate env) :=
  inferInstanceAs (Decidable (∀ _ ∈ _, _))

/-- The overlay polygons matched by a record list, one block per record. -/
def allMatches (recs : List (Nat × List Nat)) : List Nat :=
  (recs.map Prod.snd).flatten

/-- The records produced when every processed base polygon receives its
canonical match list: one record per base index of the order whose canonical
match list is non-empty, in processing order. -/
def canonRecords (env : SelectEnv) (order : List Nat) :
    List (Nat × List Nat) :=
  order.filterMap (fun ix =>
    if canonMatches env ix = [] then none
    else some (ix, canonMatches env ix))

/-- Geometric primitives used by cascade_union and merge_overlapping, all
external collaborators of the repository.  P is the polygon value type;
areaP models bg::area of a single polygon; unionM models bg::union_ on
multi-polygons (lists of polygons); unionPP models the bg::union_ call of
merge_overlapping on two polygons, returning a possibly multi-part result. -/
structure Geo (P : Type) where
  areaP : P → Int
  unionM : List P → List P → List P
  unionPP : P → P → List P

/-- Total area of a multi-polygon: bg::area of a multi-polygon is the sum of
the areas of its members. -/
def areaM (g : Geo P) (m : List P) : Int :=
  (m.map g.areaP).sum

/-- Push into the priority queue of cascade_union.  The queue
std::priority_queue with comparator CompareArea (greater area compares lower)
keeps the multi-polygon of smallest total area on top; it is modelled as a
list sorted by ascending total area, and push as sorted insertion. -/
def pqInsert (g : Geo P) (m : List P) : List (List P) → List (List P)
  | [] => [m]
  | x :: xs => if areaM g m ≤ areaM g x then m :: x :: xs else x :: pqInsert g m xs

/-- The while loop of cascade_union: while the queue holds more than one
element, pop the two smallest multi-polygons, push their union back.  The
second component counts the pairwise union operations performed.  The first
argument is recursion fuel: each iteration shrinks the queue by exactly one
element, so a fuel of the initial queue length always reaches the loop exit
(cascadeLoop_exact below proves the result is the loop fixpoint for any
sufficient fuel). -/
def cascadeLoop (g : Geo P) : Nat → List (List P) → Nat → List (List P) × Nat
  | 0, q, c => (q, c)
  | _ + 1, [], c => ([], c)
  | _ + 1, [m], c => ([m], c)
  | fuel + 1, m1 :: m2 :: rest, c =>
    cascadeLoop g fuel (pqInsert g (g.unionM m1 m2) rest) (c + 1)

/-- The priority queue of cascade_union after the initial loop pushing every
input polygon as a single-member multi-polygon. -/
def buildQueue (g : Geo P) (polygons : List P) : List (List P) :=
  polygons.foldl (fun q p => pqInsert g [p] q) []

/-- cascade_union, modelled from the repository: empty input returns the
empty list; otherwise every input polygon is pushed as a single-member
multi-polygon, the loop reduces the queue to one element, and the members of
the remaining multi-polygon are returned. -/
def cascade_union (g : Geo P) (polygons : List P) : List P :=
  match polygons with
  | [] => []
  | _ :: _ =>
    (cascadeLoop g (buildQueue g polygons).length (buildQueue g polygons) 0).1.headD []

/-- Number of pairwise union operations performed by cascade_union
(instrumentation of the same loop). -/
def cascade_unionCount (g : Geo P) (polygons : List P) : Nat :=
  match polygons with
  | [] => 0
  | _ :: _ =>
    (cascadeLoop g (buildQueue g polygons).length (buildQueue g polygons) 0).2

/-- Modelled from the spec sentence describing the cascade: repeatedly pop
the two smallest elements, compute their union, push it back, until exactly
one element remains; return its constituent simple polygons (the empty queue
gives the empty sequence). -/
def reduceQueue (g : Geo P) : List (List P) → List P
  | [] => []
  | [m] => m
  | m1 :: m2 :: rest => reduceQueue g (pqInsert g (g.unionM m1 m2) rest)
termination_by q => q.length
decreasing_by
  have h : ∀ (m : List P) (q : List (List P)),
      (pqInsert g m q).length = q.length + 1 := by
    intro m q
    induction q with
    | nil => rfl
    | cons x xs ih => by_cases h2 : areaM g m ≤ areaM g x <;> simp [pqInsert, h2, ih]
  simp [h]

/-- Modelled from the spec: insert each input polygon, wrapped as a
single-member multi-polygon, into a priority queue ordered by ascending total
area, then reduce the queue by smallest-first pairwise unions. -/
def smallest_first_cascade (g : Geo P) (polygons : List P) : List P :=
  reduceQueue g (buildQueue g polygons)

/-- Ascending order by total area of the priority queue model. -/
def pqSorted (g : Geo P) (q : List (List P)) : Prop :=
  q.Pairwise (fun a b => areaM g a ≤ areaM g b)

instance (g : Geo P) (q : List (List P)) : Decidable (pqSorted g q) :=
  inferInstanceAs (Decidable (List.Pairwise _ _))

/-- First phase of merge_overlapping, modelled from the chunk helper of the
repository: every record of the overlap list is replaced by the cascade union
of its matched overlay polygons, and records whose union comes back empty are
dropped. -/
def merge_pre (g : Geo P) (overlap : List (Nat × List P)) :
    List (Nat × List P) :=
  overlap.filterMap (fun item =>
    match cascade_union g item.2 with
    | [] => none
    | u => some (item.1, u))

/-- Application of one reduced record inside the worker of merge_overlapping.
The state is (water, extras): the base polygon list and the queued extra
polygons.  The base polygon at the index of the record is unioned with the
first reduced element; when the union is non-empty its first piece replaces
the slot and the further pieces are queued; the reduced elements beyond the
first are queued in every case. -/
def mergeStep [Inhabited P] (g : Geo P) (st : List P × List P)
    (item : Nat × List P) : List P × List P :=
  match item.2 with
  | [] => st
  | u0 :: urest =>
    match g.unionPP (st.1.getD item.1 default) u0 with
    | [] => (st.1, st.2 ++ urest)
    | w0 :: wrest => (st.1.set item.1 w0, st.2 ++ wrest ++ urest)

/-- merge_overlapping, modelled from the repository (sequential semantics):
reduce every record by cascade union, fold the applier over the reduced
records, and finally append all queued extra polygons to the base
collection. -/
def merge_overlapping [Inhabited P] (g : Geo P) (water : List P)
    (overlap : List (Nat × List P)) : List P :=
  let st := (merge_pre g overlap).foldl (mergeStep g) (water, [])
  st.1 ++ st.2

/-- Modelled from the spec sentences for the Merge Applier, one record at a
time: run the Cascade Union Engine over the matched overlay polygons of the
record; take the first element of the reduced list and union it with the
existing base polygon at the index of the record; replace that slot with the
first resulting piece; queue any additional pieces of that union and any
reduced elements beyond the first. -/
def merge_specStep [Inhabited P] (g : Geo P) (st : List P × List P)
    (item : Nat × List P) : List P × List P :=
  match cascade_union g item.2 with
  | [] => st
  | u0 :: urest =>
    match g.unionPP (st.1.getD item.1 default) u0 with
    | [] => (st.1, st.2 ++ urest)
    | w0 :: wrest => (st.1.set item.1 w0, st.2 ++ wrest ++ urest)

/-- Modelled from the spec sentences for the Merge Applier: process every
record in turn, then append all queued extra polygons to the base collection
once. -/
def merge_spec [Inhabited P] (g : Geo P) (water : List P)
    (overlap : List (Nat × List P)) : List P :=
  let st := overlap.foldl (merge_specStep g) (water, [])
  st.1 ++ st.2

/-- The chunk list of parallel_for, modelled from the repository.  The
arguments mirror the source: size of the index range, requested thread count,
minimum size for parallel execution, and the hardware concurrency hw standing
for std::thread::hardware_concurrency().  When the requested count is 0 the
hardware count is used; one thread, or a size not above the minimum, gives the
single chunk (0, size); otherwise thread ix receives the contiguous range of
length size / t plus one extra index when ix < size % t. -/
def chunksGo (shift rem : Nat) : Nat → Nat → Nat → List (Nat × Nat)
  | 0, _, _ => []
  | k + 1, ix, start =>
    (start, start + shift + (if ix < rem then 1 else 0)) ::
      chunksGo shift rem k (ix + 1) (start + shift + (if ix < rem then 1 else 0))

/-- The index sub-ranges over which parallel_for invokes its worker. -/
def chunks (size num_threads min_size hw : Nat) : List (Nat × Nat) :=
  let t := if num_threads = 0 then hw else num_threads
  if t = 1 ∨ size ≤ min_size then [(0, size)]
  else chunksGo (size / t) (size % t) t 0 0

/-- The closed form of the start of the chunk of worker ix. -/
def chunkStart (shift rem ix : Nat) : Nat :=
  ix * shift + min ix rem

/-- Results of all workers, in chunk order.  Every worker is invoked on its
chunk; a worker either returns normally or raises an exception of type E
(Except.error), which parallel_for captures without stopping the other
workers. -/
def runWorkers (worker : Nat → Nat → Except E Unit) (cs : List (Nat × Nat)) :
    List (Except E Unit) :=
  cs.map (fun c => worker c.1 c.2)

/-- The exception re-raised by parallel_for: the shared exception slot is
overwritten by every failing worker, so after the join it holds the exception
of the last failing worker (in the serialized order of the model). -/
def lastError : List (Except E Unit) → Option E :=
  fun rs => rs.foldl (fun acc r =>
    match r with
    | Except.error e => some e
    | Except.ok _ => acc) none

/-- parallel_for, modelled from the repository: split the range into chunks,
run every worker to completion while capturing exceptions, join, and re-raise
the recorded exception if any worker failed. -/
def parallel_for (worker : Nat → Nat → Except E Unit)
    (size num_threads min_size hw : Nat) : Except E Unit :=
  match lastError (runWorkers worker (chunks size num_threads min_size hw)) with
  | some e => Except.error e
  | none => Except.ok ()

/-- A concrete geometry instance on Nat polygons used to evaluate the model:
the area of polygon n is n, union of multi-polygons concatenates, union of
two polygons yields the one-piece sum. -/
def unitGeo : Geo Nat where
  areaP := fun n => (n : Int)
  unionM := fun a b => a ++ b
  unionPP := fun a b => [a + b]

/-- A concrete degenerate geometry instance on Nat polygons whose union
operations always return the empty multi-polygon. -/
def emptyGeo : Geo Nat where
  areaP := fun n => (n : Int)
  unionM := fun _ _ => []
  unionPP := fun _ _ => []

/-- A concrete selection environment with two base polygons and one overlay
polygon 7.  Overlay 7 truly intersects base 0 without being contained in it,
and is fully contained in base 1; both RTree queries return it. -/
def cexEnv : SelectEnv where
  n := 2
  query := fun _ => [7]
  inter := fun _ _ => true
  within := fun a ix => decide (a = 7 ∧ ix = 1)

/-- A concrete selection environment with no shared candidate: base 0 only
ever sees overlay 5 and base 1 only overlay 6. -/
def detEnv : SelectEnv where
  n := 2
  query := fun ix => if ix = 0 then [5] else [6]
  inter := fun _ _ => true
  within := fun _ _ => false

/-- A concrete worker for the parallel_for model: the worker owning index 0
raises exception 7, every other worker returns normally. -/
def failingWorker : Nat → Nat → Except Nat Unit :=
  fun i _ => if i = 0 then Except.error 7 else Except.ok ()

/-- Full description of the candidate fold of one base polygon: folding the
candidate loop from the state (claimed, ms) appends a block new of fresh
claims to both the claimed set (in reverse, since std::set insertion is
modelled by consing) and the match list; every element of new comes from the
candidate list, was unclaimed before, and passes the geometric filter. -/
theorem selectBase_fold_spec (env : SelectEnv) (ix : Nat) :
    ∀ (cands : List Nat) (claimed ms : List Nat),
    ∃ new : List Nat,
      cands.foldl (candStep env ix) (claimed, ms) =
        (new.reverse ++ claimed, ms ++ new) ∧
      new.Nodup ∧
      ∀ a ∈ new, a ∉ claimed ∧ a ∈ cands ∧ passFilter env ix a := by
  intro cands
  induction cands with
  | nil =>
    intro claimed ms
    exact ⟨[], by simp, List.nodup_nil, by simp⟩
  | cons a rest ih =>
    intro claimed ms
    by_cases hmem : a ∈ claimed
    · obtain ⟨new, heq, hnd, hmemspec⟩ := ih claimed ms
      refine ⟨new, ?_, hnd, ?_⟩
      · simpa [List.foldl_cons, candStep, hmem] using heq
      · intro b hb
        obtain ⟨h1, h2, h3⟩ := hmemspec b hb
        exact ⟨h1, List.mem_cons_of_mem _ h2, h3⟩
    · by_cases hflt : env.inter ix a = false ∨ env.within a ix = true
      · obtain ⟨new, heq, hnd, hmemspec⟩ := ih claimed ms
        refine ⟨new, ?_, hnd, ?_⟩
        · simpa [List.foldl_cons, candStep, hmem, hflt] using heq
        · intro b hb
          obtain ⟨h1, h2, h3⟩ := hmemspec b hb
          exact ⟨h1, List.mem_cons_of_mem _ h2, h3⟩
      · obtain ⟨new, heq, hnd, hmemspec⟩ := ih (a :: claimed) (ms ++ [a])
        refine ⟨a :: new, ?_, ?_, ?_⟩
        · have hstep : candStep env ix (claimed, ms) a =
              (a :: claimed, ms ++ [a]) := by
            simp [candStep, hmem, hflt]
          rw [List.foldl_cons, hstep, heq]
          simp
        · refine List.nodup_cons.mpr ⟨?_, hnd⟩
          intro ha
          exact (hmemspec a ha).1 (List.mem_cons_self a claimed)
        · intro b hb
          rcases List.mem_cons.mp hb with hb | hb
          · subst hb
            refine ⟨hmem, List.mem_cons_self _ _, ?_⟩
            push_neg at hflt
            exact ⟨by simpa using hflt.1, by simpa using hflt.2⟩
          · obtain ⟨h1, h2, h3⟩ := hmemspec b hb
            refine ⟨fun hc => h1 (List.mem_cons_of_mem _ hc),
              List.mem_cons_of_mem _ h2, h3⟩

/-- Specialisation of selectBase_fold_spec to selectBase itself. -/
theorem selectBase_spec (env : SelectEnv) (claimed : List Nat) (ix : Nat) :
    ∃ new : List Nat,
      selectBase env claimed ix = (new.reverse ++ claimed, new) ∧
      new.Nodup ∧
      ∀ a ∈ new, a ∉ claimed ∧ a ∈ env.query ix ∧ passFilter env ix a := by
  obtain ⟨new, heq, hnd, hm⟩ :=
    selectBase_fold_spec env ix (env.query ix) claimed []
  exact ⟨new, by simpa [selectBase] using heq, hnd, hm⟩

/-- Invariant of the outer loop of a selection pass: if the matches recorded
so far are duplicate-free and all live in the claimed set, then the same holds
after processing any further list of base indices. -/
theorem selectRun_inv (env : SelectEnv) :
    ∀ (order : List Nat) (recs : List (Nat × List Nat)) (claimed : List Nat),
    (allMatches recs).Nodup → (∀ a ∈ allMatches recs, a ∈ claimed) →
    (allMatches (order.foldl (selectStep env) (recs, claimed)).1).Nodup ∧
      ∀ a ∈ allMatches (order.foldl (selectStep env) (recs, claimed)).1,
        a ∈ (order.foldl (selectStep env) (recs, claimed)).2 := by
  intro order
  induction order with
  | nil =>
    intro recs claimed hnd hsub
    exact ⟨hnd, hsub⟩
  | cons ix rest ih =>
    intro recs claimed hnd hsub
    obtain ⟨new, heq, hnewnd, hnewspec⟩ := selectBase_spec env claimed ix
    rw [List.foldl_cons]
    by_cases hempty : new = []
    · have hstep : selectStep env (recs, claimed) ix = (recs, claimed) := by
        simp [selectStep, heq, hempty]
      rw [hstep]
      exact ih recs claimed hnd hsub
    · have hstep : selectStep env (recs, claimed) ix =
          (recs ++ [(ix, new)], new.reverse ++ claimed) := by
        simp [selectStep, heq, hempty]
      rw [hstep]
      have hall : allMatches (recs ++ [(ix, new)]) = allMatches recs ++ new := by
        simp [allMatches]
      refine ih (recs ++ [(ix, new)]) (new.reverse ++ claimed) ?_ ?_
      · rw [hall]
        refine List.Nodup.append hnd hnewnd ?_
        intro b hb hbnew
        exact (hnewspec b hbnew).1 (hsub b hb)
      · intro b hb
        rw [hall] at hb
        rcases List.mem_append.mp hb with hb | hb
        · exact List.mem_append.mpr (Or.inr (hsub b hb))
        · exact List.mem_append.mpr (Or.inl (by simpa using hb))

/-- Claim C1: within one selection pass, select_overlap never references the
same overlay polygon (by identity) twice: the concatenation of all match lists
of the returned OverlapRecords is duplicate-free, so an overlay polygon
claimed into one record via the dedup set appears in no other match list and
never twice within one list. -/
theorem select_overlap_claims_unique (env : SelectEnv) :
    (allMatches (select_overlap env)).Nodup := by
  have h := selectRun_inv env (List.range env.n) [] [] (by simp [allMatches])
    (by simp [allMatches])
  exact h.1

theorem pqInsert_length (g : Geo P) (m : List P) :
    ∀ q : List (List P), (pqInsert g m q).length = q.length + 1 := by
  intro q
  induction q with
  | nil => rfl
  | cons x xs ih =>
    by_cases h : areaM g m ≤ areaM g x <;> simp [pqInsert, h, ih]

theorem pqInsert_mem (g : Geo P) (m : List P) :
    ∀ (q : List (List P)) (b : List P), b ∈ pqInsert g m q ↔ b = m ∨ b ∈ q := by
  intro q
  induction q with
  | nil => simp [pqInsert]
  | cons x xs ih =>
    intro b
    by_cases h : areaM g m ≤ areaM g x
    · simp [pqInsert, h]
    · simp [pqInsert, h, ih]
      tauto

theorem pqInsert_sorted (g : Geo P) (m : List P) :
    ∀ q : List (List P), pqSorted g q → pqSorted g (pqInsert g m q) := by
  intro q
  induction q with
  | nil =>
    intro _
    simp [pqInsert, pqSorted]
  | cons x xs ih =>
    intro hq
    rw [pqSorted, List.pairwise_cons] at hq
    by_cases h : areaM g m ≤ areaM g x
    · rw [pqSorted, pqInsert]
      simp only [h, if_true]
      refine List.pairwise_cons.mpr ⟨?_, ?_⟩
      · intro b hb
        rcases List.mem_cons.mp hb with rfl | hb
        · exact h
        · exact le_trans h (hq.1 b hb)
      · exact List.pairwise_cons.mpr hq
    · rw [pqSorted, pqInsert]
      simp only [h, if_false]
      refine List.pairwise_cons.mpr ⟨?_, ih hq.2⟩
      intro b hb
      rcases (pqInsert_mem g m xs b).mp hb with rfl | hb
      · exact le_of_not_le h
      · exact hq.1 b hb

theorem buildQueue_go_length (g : Geo P) :
    ∀ (polygons : List P) (q : List (List P)),
      (polygons.foldl (fun q p => pqInsert g [p] q) q).length =
        q.length + polygons.length := by
  intro polygons
  induction polygons with
  | nil => simp
  | cons p rest ih =>
    intro q
    rw [List.foldl_cons, ih, pqInsert_length]
    simp only [List.length_cons]
    omega

theorem buildQueue_length (g : Geo P) (polygons : List P) :
    (buildQueue g polygons).length = polygons.length := by
  simpa using buildQueue_go_length g polygons []

theorem buildQueue_sorted (g : Geo P) (polygons : List P) :
    pqSorted g (buildQueue g polygons) := by
  have h : ∀ (ps : List P) (q : List (List P)), pqSorted g q →
      pqSorted g (ps.foldl (fun q p => pqInsert g [p] q) q) := by
    intro ps
    induction ps with
    | nil => intro q hq; simpa using hq
    | cons p rest ih =>
      intro q hq
      rw [List.foldl_cons]
      exact ih _ (pqInsert_sorted g [p] q hq)
  exact h polygons [] (by simp [pqSorted])

/-- The loop of cascade_union computed with any sufficient fuel is the loop
fixpoint: it returns the single remaining multi-polygon, described by
reduceQueue, after exactly one pairwise union per iteration (queue length
minus one union operations in total). -/
theorem cascadeLoop_exact (g : Geo P) :
    ∀ (n : Nat) (q : List (List P)) (c fuel : Nat),
      q.length = n + 1 → n ≤ fuel →
      cascadeLoop g fuel q c = ([reduceQueue g q], c + n) := by
  intro n
  induction n with
  | zero =>
    intro q c fuel hl _
    match q, hl with
    | [m], _ =>
      match fuel with
      | 0 => simp [cascadeLoop, reduceQueue]
      | _ + 1 => simp [cascadeLoop, reduceQueue]
  | succ n ih =>
    intro q c fuel hl hfuel
    match q, hl with
    | m1 :: m2 :: rest, hl =>
      match fuel, hfuel with
      | f + 1, hfuel =>
        rw [cascadeLoop]
        have hlen : (pqInsert g (g.unionM m1 m2) rest).length = n + 1 := by
          rw [pqInsert_length]
          simpa using hl
        rw [ih _ (c + 1) f hlen (by omega)]
        have hred : reduceQueue g (m1 :: m2 :: rest) =
            reduceQueue g (pqInsert g (g.unionM m1 m2) rest) := by
          simp [reduceQueue]
        rw [hred]
        have harith : c + 1 + n = c + (n + 1) := by omega
        rw [harith]

/-- Claim C2: cascade_union executes the smallest-first cascade.  It equals
the function modelled from the spec sentence (insert every input polygon as a
single-member multi-polygon into a priority queue ordered by ascending total
area, repeatedly pop the two smallest elements, union them and push the union
back, finally return the constituents of the last element); moreover the
initial queue is sorted by ascending total area, pushing preserves that
order, and in a sorted queue the two popped elements are two elements of
smallest total area. -/
theorem cascade_union_smallest_first (g : Geo P) (polygons : List P) :
    cascade_union g polygons = smallest_first_cascade g polygons ∧
    pqSorted g (buildQueue g polygons) ∧
    (∀ (m : List P) (q : List (List P)),
      pqSorted g q → pqSorted g (pqInsert g m q)) ∧
    ∀ (m1 m2 : List P) (rest : List (List P)), pqSorted g (m1 :: m2 :: rest) →
      areaM g m1 ≤ areaM g m2 ∧
        ∀ x ∈ rest, areaM g m1 ≤ areaM g x ∧ areaM g m2 ≤ areaM g x := by
  refine ⟨?_, buildQueue_sorted g polygons, fun m q h => pqInsert_sorted g m q h, ?_⟩
  · match polygons with
    | [] => simp [cascade_union, smallest_first_cascade, buildQueue, reduceQueue]
    | p :: rest =>
      have hlen : (buildQueue g (p :: rest)).length = rest.length + 1 := by
        simp [buildQueue_length]
      rw [cascade_union,
        cascadeLoop_exact g rest.length _ 0 _ hlen (by omega)]
      simp [smallest_first_cascade, hlen]
  · intro m1 m2 rest hs
    rw [pqSorted, List.pairwise_cons] at hs
    have hs2 := List.pairwise_cons.mp hs.2
    refine ⟨hs.1 m2 (List.mem_cons_self _ _), ?_⟩
    intro x hx
    exact ⟨hs.1 x (List.mem_cons_of_mem _ hx), hs2.1 x hx⟩

/-- Witness for cascade_union_smallest_first: the sortedness conjunct applied
to a concrete push into a concrete sorted queue. -/
theorem cascade_union_smallest_first_witness :
    pqSorted unitGeo (pqInsert unitGeo [3] [[1], [2]]) :=
  (cascade_union_smallest_first unitGeo []).2.2.1 [3] [[1], [2]] (by decide)

/-- Claim C8: cascade_union of the empty sequence is the empty sequence, and
cascade_union of a single polygon returns that polygon unchanged while
performing no pairwise union operation. -/
theorem cascade_union_trivial (g : Geo P) (p : P) :
    cascade_union g [] = [] ∧ cascade_union g [p] = [p] ∧
      cascade_unionCount g [p] = 0 := by
  refine ⟨rfl, ?_, ?_⟩ <;>
    simp [cascade_union, cascade_unionCount, buildQueue, pqInsert, cascadeLoop]

/-- Claim C10: cascade_union terminates on every finite input, performing
exactly n - 1 pairwise union operations for an input of n polygons (n at
least one); each loop iteration pops two queue elements and pushes one, so
pushing into the queue grows it by exactly one element and every iteration
shrinks it by exactly one. -/
theorem cascade_union_count_exact (g : Geo P) (polygons : List P)
    (h : polygons ≠ []) :
    cascade_unionCount g polygons = polygons.length - 1 ∧
    ∀ (m : List P) (q : List (List P)),
      (pqInsert g m q).length = q.length + 1 := by
  refine ⟨?_, fun m q => pqInsert_length g m q⟩
  match polygons, h with
  | p :: rest, _ =>
    have hlen : (buildQueue g (p :: rest)).length = rest.length + 1 := by
      simp [buildQueue_length]
    rw [cascade_unionCount,
      cascadeLoop_exact g rest.length _ 0 _ hlen (by omega)]
    simp

/-- Witness for cascade_union_count_exact: three concrete polygons need
exactly two pairwise unions. -/
theorem cascade_union_count_exact_witness :
    cascade_unionCount unitGeo [1, 2, 3] = 2 :=
  (cascade_union_count_exact unitGeo [1, 2, 3] (by decide)).1

theorem foldl_filterMap_fuse {α β γ : Type} (f : β → Option γ) (op : α → γ → α) :
    ∀ (l : List β) (init : α),
      (l.filterMap f).foldl op init =
        l.foldl (fun st x =>
          match f x with
          | none => st
          | some y => op st y) init := by
  intro l
  induction l with
  | nil => intro init; rfl
  | cons x rest ih =>
    intro init
    cases hfx : f x <;> simp [List.filterMap_cons, hfx, ih]

theorem merge_pre_fst (g : Geo P) (overlap : List (Nat × List P)) :
    ∀ it ∈ merge_pre g overlap, ∃ r ∈ overlap, it.1 = r.1 := by
  intro it hit
  rw [merge_pre, List.mem_filterMap] at hit
  obtain ⟨r, hr, heq⟩ := hit
  refine ⟨r, hr, ?_⟩
  cases h : cascade_union g r.2 with
  | nil => rw [h] at heq; simp at heq
  | cons u0 urest =>
    rw [h] at heq
    simp only [Option.some.injEq] at heq
    rw [← heq]

theorem mergeFold_frame [Inhabited P] (g : Geo P) :
    ∀ (items : List (Nat × List P)) (water extras : List P) (j : Nat),
      (∀ it ∈ items, it.1 ≠ j) →
      (items.foldl (mergeStep g) (water, extras)).1[j]? = water[j]? ∧
      (items.foldl (mergeStep g) (water, extras)).1.length = water.length := by
  intro items
  induction items with
  | nil =>
    intro water extras j _
    exact ⟨rfl, rfl⟩
  | cons it rest ih =>
    intro water extras j hne
    have hnej : it.1 ≠ j := hne it (List.mem_cons_self _ _)
    have hnerest : ∀ i ∈ rest, i.1 ≠ j :=
      fun i hi => hne i (List.mem_cons_of_mem _ hi)
    rw [List.foldl_cons]
    obtain ⟨i, ms⟩ := it
    match ms with
    | [] =>
      have hstep : mergeStep g (water, extras) (i, []) = (water, extras) := rfl
      rw [hstep]
      exact ih water extras j hnerest
    | u0 :: urest =>
      cases hu : g.unionPP (water.getD i default) u0 with
      | nil =>
        have hstep : mergeStep g (water, extras) (i, u0 :: urest) =
            (water, extras ++ urest) := by
          simp only [mergeStep]
          rw [hu]
        rw [hstep]
        exact ih water (extras ++ urest) j hnerest
      | cons w0 wrest =>
        have hstep : mergeStep g (water, extras) (i, u0 :: urest) =
            (water.set i w0, extras ++ wrest ++ urest) := by
          simp only [mergeStep]
          rw [hu]
        rw [hstep]
        obtain ⟨h1, h2⟩ := ih (water.set i w0) (extras ++ wrest ++ urest) j hnerest
        refine ⟨?_, ?_⟩
        · rw [h1, List.getElem?_set_ne hnej]
        · rw [h2, List.length_set]

/-- Claim C3: merge_overlapping equals the Merge Applier described by the
spec (per record, cascade-union the matched overlay polygons, union the first
reduced element with the base polygon stored at the index of the record,
replace that slot with the first piece, queue the further pieces of that
union and the reduced elements beyond the first, and append all queued extra
polygons once at the end), and it modifies no base slot whose index is not
the index of some record. -/
theorem merge_overlapping_spec [Inhabited P] (g : Geo P) (water : List P)
    (overlap : List (Nat × List P)) :
    merge_overlapping g water overlap = merge_spec g water overlap ∧
    ∀ j, j < water.length → (∀ r ∈ overlap, r.1 ≠ j) →
      (merge_overlapping g water overlap)[j]? = water[j]? := by
  constructor
  · have hfold : ∀ (ov : List (Nat × List P)) (st : List P × List P),
        (merge_pre g ov).foldl (mergeStep g) st =
          ov.foldl (merge_specStep g) st := by
      intro ov
      induction ov with
      | nil => intro st; rfl
      | cons item rest ih =>
        intro st
        rw [merge_pre, List.filterMap_cons]
        cases h : cascade_union g item.2 with
        | nil =>
          have hspec : merge_specStep g st item = st := by
            simp only [merge_specStep]
            rw [h]
          rw [List.foldl_cons, hspec, ← ih st]
          rfl
        | cons u0 urest =>
          have hstep : mergeStep g st (item.1, u0 :: urest) =
              merge_specStep g st item := by
            simp only [mergeStep, merge_specStep]
            rw [h]
          rw [List.foldl_cons, List.foldl_cons, hstep, ← ih]
          rfl
    rw [merge_overlapping, merge_spec, hfold]
  · intro j hj hne
    have hpre : ∀ it ∈ merge_pre g overlap, it.1 ≠ j := by
      intro it hit
      obtain ⟨r, hr, heq⟩ := merge_pre_fst g overlap it hit
      rw [heq]
      exact hne r hr
    obtain ⟨h1, h2⟩ :=
      mergeFold_frame g (merge_pre g overlap) water [] j hpre
    rw [merge_overlapping, List.getElem?_append_left (by rw [h2]; exact hj)]
    exact h1

/-- Witness for merge_overlapping_spec: a base slot not named by any record
keeps its polygon. -/
theorem merge_overlapping_spec_witness :
    (merge_overlapping unitGeo [10, 20] [(0, [1, 2])])[1]? =
      [10, 20][1]? :=
  (merge_overlapping_spec unitGeo [10, 20] [(0, [1, 2])]).2 1 (by decide)
    (by decide)

/-- Claim C9: when the geometric unions of a record come back empty the base
slot is left unchanged.  A record whose cascade union is empty is dropped
before the applier runs, so merging with it is merging without it; and when
the union of the base polygon with the first reduced element is empty, the
applier keeps the base list untouched and queues only the reduced elements
beyond the first (no piece of that union). -/
theorem merge_empty_union_noop [Inhabited P] (g : Geo P) (water : List P)
    (pre post : List (Nat × List P)) (idx : Nat) (ms : List P)
    (st : List P × List P) (u0 : P) (urest : List P) :
    (cascade_union g ms = [] →
      merge_overlapping g water (pre ++ (idx, ms) :: post) =
        merge_overlapping g water (pre ++ post)) ∧
    (g.unionPP (st.1.getD idx default) u0 = [] →
      mergeStep g st (idx, u0 :: urest) = (st.1, st.2 ++ urest)) := by
  constructor
  · intro h
    rw [merge_overlapping, merge_overlapping, merge_pre, merge_pre,
      List.filterMap_append, List.filterMap_append, List.filterMap_cons]
    simp only [h]
  · intro h
    simp only [mergeStep]
    rw [h]

/-- Witness for merge_empty_union_noop with the degenerate geometry whose
unions are always empty. -/
theorem merge_empty_union_noop_witness :
    merge_overlapping emptyGeo [5] [(0, [1, 2])] =
        merge_overlapping emptyGeo [5] [] ∧
    mergeStep emptyGeo ([5], []) (0, [3, 4]) = ([5], [4]) := by
  constructor
  · exact (merge_empty_union_noop emptyGeo [5] [] [] 0 [1, 2]
      ([5], []) 0 []).1 (by decide)
  · exact (merge_empty_union_noop emptyGeo [5] [] [] 0 [1, 2]
      ([5], []) 3 [4]).2 (by decide)

theorem chunkStart_succ (shift rem ix : Nat) :
    chunkStart shift rem (ix + 1) =
      chunkStart shift rem ix + shift + (if ix < rem then 1 else 0) := by
  unfold chunkStart
  rw [Nat.succ_mul]
  by_cases h : ix < rem <;> simp [h] <;> omega

theorem chunksGo_length (shift rem : Nat) :
    ∀ (k ix start : Nat), (chunksGo shift rem k ix start).length = k := by
  intro k
  induction k with
  | zero => intro ix start; rfl
  | succ k ih => intro ix start; simp [chunksGo, ih]

theorem chunksGo_get (shift rem : Nat) :
    ∀ (k ix j : Nat), j < k →
      (chunksGo shift rem k ix (chunkStart shift rem ix))[j]? =
        some (chunkStart shift rem (ix + j), chunkStart shift rem (ix + j + 1)) := by
  intro k
  induction k with
  | zero => intro ix j hj; omega
  | succ k ih =>
    intro ix j hj
    rw [chunksGo, ← chunkStart_succ shift rem ix]
    match j with
    | 0 => simp
    | j + 1 =>
      have hrec := ih (ix + 1) j (by omega)
      simp only [List.getElem?_cons_succ]
      rw [hrec]
      have h1 : ix + 1 + j = ix + (j + 1) := by omega
      rw [h1]

/-- Claim C6, amended: parallel_for with a positive hardware concurrency
behaves as follows.  Let t be the effective thread count (the hardware count
when the requested count is 0, the requested count otherwise).  When t is 1,
or the TOTAL size is at most the configurable minimum, the whole range is
one chunk (0, size): the worker is called once, sequentially.  Otherwise
there are exactly t contiguous chunks; the chunk of worker j runs from
chunkStart j to chunkStart (j+1), where consecutive starts differ by
size / t plus one extra index exactly when j < size % t (the remainder is
spread over the first size % t workers); the first chunk starts at 0 and the
last ends at size, so the chunks cover the range [0, size) exactly once. -/
theorem parallel_for_partition (size nt ms hw t : Nat) (hhw : 1 ≤ hw)
    (ht : t = if nt = 0 then hw else nt) :
    (t = 1 ∨ size ≤ ms → chunks size nt ms hw = [(0, size)]) ∧
    (¬(t = 1 ∨ size ≤ ms) →
      (chunks size nt ms hw).length = t ∧
      chunkStart (size / t) (size % t) 0 = 0 ∧
      chunkStart (size / t) (size % t) t = size ∧
      (∀ j, chunkStart (size / t) (size % t) (j + 1) =
        chunkStart (size / t) (size % t) j + size / t +
          (if j < size % t then 1 else 0)) ∧
      ∀ j < t, (chunks size nt ms hw)[j]? =
        some (chunkStart (size / t) (size % t) j,
          chunkStart (size / t) (size % t) (j + 1))) := by
  have htpos : 1 ≤ t := by
    rw [ht]
    by_cases h : nt = 0
    · simpa [h] using hhw
    · simp [h]; omega
  constructor
  · intro h
    rw [chunks, ← ht]
    simp [h]
  · intro h
    have hchunks : chunks size nt ms hw =
        chunksGo (size / t) (size % t) t 0 0 := by
      rw [chunks, ← ht]
      simp [h]
    refine ⟨?_, ?_, ?_, ?_, ?_⟩
    · rw [hchunks, chunksGo_length]
    · simp [chunkStart]
    · have hmod : size % t < t := Nat.mod_lt _ (by omega)
      have hdm : t * (size / t) + size % t = size := Nat.div_add_mod size t
      simp only [chunkStart]
      omega
    · intro j
      exact chunkStart_succ (size / t) (size % t) j
    · intro j hj
      have h0 : chunkStart (size / t) (size % t) 0 = 0 := by simp [chunkStart]
      rw [hchunks]
      have := chunksGo_get (size / t) (size % t) t 0 j hj
      rw [h0] at this
      simpa using this

/-- Witness for parallel_for_partition: ten indices over four threads give
chunks of sizes 3, 3, 2, 2; the chunk of worker 2 is (6, 8). -/
theorem parallel_for_partition_witness :
    (chunks 10 4 1 8)[2]? = some (6, 8) :=
  (parallel_for_partition 10 4 1 8 4 (by decide) (by decide)).2
    (by decide) |>.2.2.2.2 2 (by decide)

/-- Counterexample to claim C6 as stated: with size 10, four threads and
minimum 5 every sub-range size (3 or 2) is below the minimum, yet
parallel_for does not fall back to the single sequential chunk (0, 10): the
code compares the TOTAL size against the minimum, not the sub-range size. -/
theorem parallel_for_partition_cex :
    10 / 4 < 5 ∧ (∀ c ∈ chunks 10 4 5 8, c.2 - c.1 < 5) ∧
      chunks 10 4 5 8 = [(0, 3), (3, 6), (6, 8), (8, 10)] ∧
      chunks 10 4 5 8 ≠ [(0, 10)] := by decide

theorem lastError_all_ok {E : Type} :
    ∀ (rs : List (Except E Unit)) (acc : Option E),
      (∀ r ∈ rs, r = Except.ok ()) →
      rs.foldl (fun acc r =>
        match r with
        | Except.error e => some e
        | Except.ok _ => acc) acc = acc := by
  intro rs
  induction rs with
  | nil => intro acc _; rfl
  | cons r rest ih =>
    intro acc hok
    rw [List.foldl_cons, hok r (List.mem_cons_self _ _)]
    exact ih acc fun r hr => hok r (List.mem_cons_of_mem _ hr)

theorem lastError_some_src {E : Type} :
    ∀ (rs : List (Except E Unit)) (acc : Option E) (e : E),
      rs.foldl (fun acc r =>
        match r with
        | Except.error e => some e
        | Except.ok _ => acc) acc = some e →
      acc = some e ∨ ∃ r ∈ rs, r = Except.error e := by
  intro rs
  induction rs with
  | nil => intro acc e h; exact Or.inl h
  | cons r rest ih =>
    intro acc e h
    rw [List.foldl_cons] at h
    match r with
    | Except.ok _ =>
      rcases ih acc e h with h | ⟨r2, hr2, he⟩
      · exact Or.inl h
      · exact Or.inr ⟨r2, List.mem_cons_of_mem _ hr2, he⟩
    | Except.error e2 =>
      rcases ih (some e2) e h with h | ⟨r2, hr2, he⟩
      · simp only [Option.some.injEq] at h
        exact Or.inr ⟨Except.error e2, List.mem_cons_self _ _, by rw [h]⟩
      · exact Or.inr ⟨r2, List.mem_cons_of_mem _ hr2, he⟩

theorem lastError_exists {E : Type} :
    ∀ (rs : List (Except E Unit)) (acc : Option E),
      (∃ r ∈ rs, r ≠ Except.ok ()) →
      ∃ e, rs.foldl (fun acc r =>
        match r with
        | Except.error e => some e
        | Except.ok _ => acc) acc = some e := by
  intro rs
  induction rs with
  | nil =>
    intro acc h
    obtain ⟨r, hr, _⟩ := h
    simp at hr
  | cons r rest ih =>
    intro acc h
    by_cases hrest : ∃ r2 ∈ rest, r2 ≠ Except.ok ()
    · rw [List.foldl_cons]
      exact ih _ hrest
    · obtain ⟨r0, hr0, hne⟩ := h
      have hr0r : r0 = r := by
        rcases List.mem_cons.mp hr0 with h | h
        · exact h
        · exact absurd ⟨r0, h, hne⟩ hrest
      subst hr0r
      match r0, hne with
      | Except.error e, _ =>
        rw [List.foldl_cons]
        refine ⟨e, ?_⟩
        push_neg at hrest
        exact lastError_all_ok rest (some e) fun r2 hr2 => by
          have := hrest r2 hr2
          match r2, this with
          | Except.ok u, _ => rfl
      | Except.ok u, hne => exact absurd rfl hne

/-- Claim C5: if every worker of parallel_for returns normally the call
returns normally; if one or more workers raise, the call re-raises exactly
one exception, and that exception was raised by one of the workers on its
own chunk; and every worker runs to completion regardless of the failures of
its siblings — the result list of runWorkers holds one entry per chunk even
when some entries are exceptions. -/
theorem parallel_for_exceptions {E : Type} (worker : Nat → Nat → Except E Unit)
    (size nt ms hw : Nat) :
    ((∀ c ∈ chunks size nt ms hw, worker c.1 c.2 = Except.ok ()) →
      parallel_for worker size nt ms hw = Except.ok ()) ∧
    ((∃ c ∈ chunks size nt ms hw, worker c.1 c.2 ≠ Except.ok ()) →
      ∃ e, parallel_for worker size nt ms hw = Except.error e) ∧
    (∀ e, parallel_for worker size nt ms hw = Except.error e →
      ∃ c ∈ chunks size nt ms hw, worker c.1 c.2 = Except.error e) ∧
    ∀ (j : Nat) (c : Nat × Nat), (chunks size nt ms hw)[j]? = some c →
      (runWorkers worker (chunks size nt ms hw))[j]? =
        some (worker c.1 c.2) := by
  refine ⟨?_, ?_, ?_, ?_⟩
  · intro hok
    have h : lastError (runWorkers worker (chunks size nt ms hw)) = none := by
      refine lastError_all_ok _ none ?_
      intro r hr
      obtain ⟨c, hc, hcr⟩ := List.mem_map.mp hr
      rw [← hcr]
      exact hok c hc
    rw [parallel_for, h]
  · intro hbad
    obtain ⟨c, hc, hne⟩ := hbad
    have h : ∃ e, lastError (runWorkers worker (chunks size nt ms hw)) =
        some e := by
      refine lastError_exists _ none ⟨worker c.1 c.2, ?_, hne⟩
      exact List.mem_map.mpr ⟨c, hc, rfl⟩
    obtain ⟨e, he⟩ := h
    exact ⟨e, by rw [parallel_for, he]⟩
  · intro e he
    rw [parallel_for] at he
    cases h : lastError (runWorkers worker (chunks size nt ms hw)) with
    | none => rw [h] at he; exact absurd he (by simp)
    | some e2 =>
      rw [h] at he
      simp only [Except.error.injEq] at he
      subst he
      rcases lastError_some_src _ none e2 h with h2 | ⟨r, hr, he2⟩
      · exact absurd h2 (by simp)
      · obtain ⟨c, hc, hcr⟩ := List.mem_map.mp hr
        exact ⟨c, hc, by rw [hcr, he2]⟩
  · intro j c hc
    rw [runWorkers, List.getElem?_map, hc]
    rfl

/-- Witness for parallel_for_exceptions: with two chunks and the worker of
chunk (0, 2) failing with exception 7, parallel_for re-raises exception 7,
raised by one of its own workers. -/
theorem parallel_for_exceptions_witness :
    ∃ c ∈ chunks 4 2 1 2, failingWorker c.1 c.2 = Except.error 7 :=
  (parallel_for_exceptions failingWorker 4 2 1 2).2.2.1 7 (by rfl)

theorem selectRun_filter (env : SelectEnv) :
    ∀ (order : List Nat) (recs : List (Nat × List Nat)) (claimed : List Nat),
      (∀ r ∈ recs, ∀ a ∈ r.2, passFilter env r.1 a) →
      ∀ r ∈ (order.foldl (selectStep env) (recs, claimed)).1, ∀ a ∈ r.2,
        passFilter env r.1 a := by
  intro order
  induction order with
  | nil =>
    intro recs claimed h
    exact h
  | cons ix rest ih =>
    intro recs claimed h
    obtain ⟨new, heq, _, hnewspec⟩ := selectBase_spec env claimed ix
    rw [List.foldl_cons]
    by_cases hempty : new = []
    · have hstep : selectStep env (recs, claimed) ix = (recs, claimed) := by
        simp [selectStep, heq, hempty]
      rw [hstep]
      exact ih recs claimed h
    · have hstep : selectStep env (recs, claimed) ix =
          (recs ++ [(ix, new)], new.reverse ++ claimed) := by
        simp [selectStep, heq, hempty]
      rw [hstep]
      refine ih _ _ ?_
      intro r hr
      rcases List.mem_append.mp hr with hr | hr
      · exact h r hr
      · intro a ha
        have hrix : r = (ix, new) := by simpa using hr
        subst hrix
        exact (hnewspec a ha).2.2

/-- Claim C4, amended: per candidate, select_overlap behaves as described —
an already claimed candidate is skipped; an unclaimed candidate that does not
truly intersect the base polygon, or is fully contained in it, is skipped
without consuming a claim; any other unclaimed candidate is claimed and
appended to the match list.  Consequently every overlay polygon of every
OverlapRecord truly intersects the base polygon of its record and is not
fully contained in it — in particular no overlay polygon is ever claimed by a
base polygon that fully contains it.  (An overlay polygon contained in SOME
base polygon can still be claimed by a DIFFERENT base polygon, so the global
exclusion stated by the claim fails; see the counterexample.) -/
theorem select_overlap_candidate_rules (env : SelectEnv) (ix : Nat) :
    (∀ (claimed ms : List Nat) (a : Nat), a ∈ claimed →
      candStep env ix (claimed, ms) a = (claimed, ms)) ∧
    (∀ (claimed ms : List Nat) (a : Nat), a ∉ claimed →
      (env.inter ix a = false ∨ env.within a ix = true) →
      candStep env ix (claimed, ms) a = (claimed, ms)) ∧
    (∀ (claimed ms : List Nat) (a : Nat), a ∉ claimed →
      env.inter ix a = true → env.within a ix = false →
      candStep env ix (claimed, ms) a = (a :: claimed, ms ++ [a])) ∧
    ∀ (jx : Nat) (ms : List Nat), (jx, ms) ∈ select_overlap env → ∀ a ∈ ms,
      env.inter jx a = true ∧ env.within a jx = false := by
  refine ⟨?_, ?_, ?_, ?_⟩
  · intro claimed ms a hmem
    simp [candStep, hmem]
  · intro claimed ms a hmem hflt
    simp [candStep, hmem, hflt]
  · intro claimed ms a hmem hint hwit
    have hflt : ¬(env.inter ix a = false ∨ env.within a ix = true) := by
      simp [hint, hwit]
    simp [candStep, hmem, hflt]
  · intro jx ms hrec a ha
    exact selectRun_filter env (List.range env.n) [] [] (by simp)
      (jx, ms) hrec a ha

/-- Witness for select_overlap_candidate_rules: in the concrete environment
cexEnv the record of base polygon 0 holds overlay 7, which truly intersects
base 0 and is not contained in it. -/
theorem select_overlap_candidate_rules_witness :
    cexEnv.inter 0 7 = true ∧ cexEnv.within 7 0 = false :=
  (select_overlap_candidate_rules cexEnv 0).2.2.2 0 [7] (by decide) 7
    (by decide)

/-- Counterexample to claim C4 as stated: in cexEnv overlay polygon 7 is
fully contained in base polygon 1 (within holds), yet the selection pass
returns an OverlapRecord referencing it — base polygon 0, which it intersects
without containment, claims it first.  An overlay polygon fully contained in
a base polygon is therefore not excluded from every OverlapRecord. -/
theorem select_overlap_containment_cex :
    cexEnv.within 7 1 = true ∧ select_overlap cexEnv = [(0, [7])] := by
  decide

/-- The candidate fold of one base polygon does not depend on the part of the
claimed set that cannot pass its geometric filter: two claimed sets agreeing
on the passing candidates produce the same match list and append the same
block of new claims. -/
theorem candFold_insensitive (env : SelectEnv) (ix : Nat) :
    ∀ (cands claimed1 claimed2 ms : List Nat),
      (∀ a ∈ cands, passFilter env ix a → (a ∈ claimed1 ↔ a ∈ claimed2)) →
      ∃ new : List Nat,
        cands.foldl (candStep env ix) (claimed1, ms) =
          (new.reverse ++ claimed1, ms ++ new) ∧
        cands.foldl (candStep env ix) (claimed2, ms) =
          (new.reverse ++ claimed2, ms ++ new) := by
  intro cands
  induction cands with
  | nil =>
    intro c1 c2 ms _
    exact ⟨[], by simp, by simp⟩
  | cons a rest ih =>
    intro c1 c2 ms h
    by_cases hp : passFilter env ix a
    · have hiff := h a (List.mem_cons_self _ _) hp
      by_cases hmem : a ∈ c1
      · have hmem2 : a ∈ c2 := hiff.mp hmem
        have hs1 : candStep env ix (c1, ms) a = (c1, ms) := by
          simp [candStep, hmem]
        have hs2 : candStep env ix (c2, ms) a = (c2, ms) := by
          simp [candStep, hmem2]
        obtain ⟨new, h1, h2⟩ :=
          ih c1 c2 ms fun b hb => h b (List.mem_cons_of_mem _ hb)
        exact ⟨new, by rw [List.foldl_cons, hs1, h1],
          by rw [List.foldl_cons, hs2, h2]⟩
      · have hmem2 : a ∉ c2 := fun hc => hmem (hiff.mpr hc)
        have hflt : ¬(env.inter ix a = false ∨ env.within a ix = true) := by
          obtain ⟨hp1, hp2⟩ := hp
          simp [hp1, hp2]
        have hs1 : candStep env ix (c1, ms) a = (a :: c1, ms ++ [a]) := by
          simp [candStep, hmem, hflt]
        have hs2 : candStep env ix (c2, ms) a = (a :: c2, ms ++ [a]) := by
          simp [candStep, hmem2, hflt]
        have hrest : ∀ b ∈ rest, passFilter env ix b →
            (b ∈ a :: c1 ↔ b ∈ a :: c2) := by
          intro b hb hbp
          have hbiff := h b (List.mem_cons_of_mem _ hb) hbp
          rw [List.mem_cons, List.mem_cons, hbiff]
        obtain ⟨new, h1, h2⟩ := ih (a :: c1) (a :: c2) (ms ++ [a]) hrest
        refine ⟨a :: new, ?_, ?_⟩
        · rw [List.foldl_cons, hs1, h1]
          simp
        · rw [List.foldl_cons, hs2, h2]
          simp
    · have hflt : env.inter ix a = false ∨ env.within a ix = true := by
        rw [passFilter] at hp
        push_neg at hp
        by_cases hint : env.inter ix a = true
        · right
          simpa using hp hint
        · left
          simpa using hint
      have hs1 : candStep env ix (c1, ms) a = (c1, ms) := by
        by_cases hmem : a ∈ c1 <;> simp [candStep, hmem, hflt]
      have hs2 : candStep env ix (c2, ms) a = (c2, ms) := by
        by_cases hmem : a ∈ c2 <;> simp [candStep, hmem, hflt]
      obtain ⟨new, h1, h2⟩ :=
        ih c1 c2 ms fun b hb => h b (List.mem_cons_of_mem _ hb)
      exact ⟨new, by rw [List.foldl_cons, hs1, h1],
        by rw [List.foldl_cons, hs2, h2]⟩

/-- When no overlay polygon is a claimable candidate of two different base
polygons, a selection pass over any duplicate-free list of base indices is
oblivious to contention: every processed base polygon receives exactly its
canonical match list, whatever was claimed by bases outside the remaining
order. -/
theorem selectRun_canonical (env : SelectEnv) (hns : NoSharedCandidate env) :
    ∀ (order : List Nat) (recs : List (Nat × List Nat)) (claimed : List Nat),
      order.Nodup → (∀ w ∈ order, w < env.n) →
      (∀ b ∈ claimed, ∃ w, w < env.n ∧ w ∉ order ∧ passB env w b) →
      (order.foldl (selectStep env) (recs, claimed)).1 =
        recs ++ canonRecords env order := by
  intro order
  induction order with
  | nil =>
    intro recs claimed _ _ _
    simp [canonRecords]
  | cons ix rest ih =>
    intro recs claimed hnd hmem hcl
    have hixn : ix < env.n := hmem ix (List.mem_cons_self _ _)
    have hndr := List.nodup_cons.mp hnd
    have hins : ∀ a ∈ env.query ix, passFilter env ix a →
        (a ∈ claimed ↔ a ∈ ([] : List Nat)) := by
      intro a haq hap
      simp only [List.not_mem_nil, iff_false]
      intro hac
      obtain ⟨w, hwn, hwo, hwb⟩ := hcl a hac
      have hwix : w ≠ ix := by
        intro heq
        exact hwo (heq ▸ List.mem_cons_self _ _)
      exact hns w (List.mem_range.mpr hwn) ix (List.mem_range.mpr hixn) hwix
        a hwb.1 hwb ⟨haq, hap⟩
    obtain ⟨new, h1, h2⟩ :=
      candFold_insensitive env ix (env.query ix) claimed [] [] hins
    simp only [List.nil_append, List.append_nil] at h1 h2
    have hsel1 : selectBase env claimed ix = (new.reverse ++ claimed, new) :=
      h1
    have hcanon : canonMatches env ix = new := by
      rw [canonMatches, selectBase, h2]
    have hnewpass : ∀ a ∈ new, passB env ix a := by
      obtain ⟨new2, heq2, _, hspec2⟩ := selectBase_spec env claimed ix
      have hnew2 : new2 = new := by
        have := heq2 ▸ hsel1
        simpa using congrArg Prod.snd (heq2.symm.trans hsel1)
      intro a ha
      obtain ⟨_, hq, hf⟩ := hspec2 a (hnew2 ▸ ha)
      exact ⟨hq, hf⟩
    rw [List.foldl_cons]
    by_cases hempty : new = []
    · have hccons : canonRecords env (ix :: rest) = canonRecords env rest := by
        rw [canonRecords, List.filterMap_cons, hcanon]
        simp [hempty, canonRecords]
      have hstep : selectStep env (recs, claimed) ix = (recs, claimed) := by
        simp [selectStep, hsel1, hempty]
      rw [hstep]
      have hrest := ih recs claimed hndr.2
        (fun w hw => hmem w (List.mem_cons_of_mem _ hw))
        (fun b hb => by
          obtain ⟨w, hwn, hwo, hwb⟩ := hcl b hb
          exact ⟨w, hwn, fun hc => hwo (List.mem_cons_of_mem _ hc), hwb⟩)
      rw [hrest, hccons]
    · have hccons : canonRecords env (ix :: rest) =
          (ix, new) :: canonRecords env rest := by
        rw [canonRecords, List.filterMap_cons, hcanon]
        simp [hempty, canonRecords]
      have hstep : selectStep env (recs, claimed) ix =
          (recs ++ [(ix, new)], new.reverse ++ claimed) := by
        simp [selectStep, hsel1, hempty]
      rw [hstep]
      have hrest := ih (recs ++ [(ix, new)]) (new.reverse ++ claimed) hndr.2
        (fun w hw => hmem w (List.mem_cons_of_mem _ hw))
        (fun b hb => by
          rcases List.mem_append.mp hb with hb | hb
          · refine ⟨ix, hixn, hndr.1, ?_⟩
            exact hnewpass b (List.mem_reverse.mp hb)
          · obtain ⟨w, hwn, hwo, hwb⟩ := hcl b hb
            exact ⟨w, hwn, fun hc => hwo (List.mem_cons_of_mem _ hc), hwb⟩)
      rw [hrest, hccons]
      simp

theorem canonRecords_mem (env : SelectEnv) (order : List Nat) (ix : Nat)
    (ms : List Nat) :
    (ix, ms) ∈ canonRecords env order ↔
      ix ∈ order ∧ canonMatches env ix ≠ [] ∧ ms = canonMatches env ix := by
  rw [canonRecords, List.mem_filterMap]
  constructor
  · rintro ⟨x, hx, hfx⟩
    by_cases hc : canonMatches env x = []
    · rw [if_pos hc] at hfx
      exact absurd hfx (by simp)
    · rw [if_neg hc] at hfx
      simp only [Option.some.injEq, Prod.mk.injEq] at hfx
      obtain ⟨hx1, hx2⟩ := hfx
      subst hx1
      exact ⟨hx, hc, hx2.symm⟩
  · rintro ⟨hx, hc, rfl⟩
    exact ⟨ix, hx, by rw [if_neg hc]⟩

/-- Claim C7: when no overlay polygon is a claimable candidate (true
intersection without containment) of two different base polygons, a selection
pass processing the base polygons in ANY duplicate-free order covering all n
base indices — the model of a parallel run with any thread count — produces
the same set of OverlapRecords as the sequential pass select_overlap: the
same base indices claim the same overlay polygons. -/
theorem select_overlap_deterministic (env : SelectEnv) (order : List Nat)
    (hnd : order.Nodup) (hlen : order.length = env.n)
    (hmem : ∀ w ∈ order, w < env.n) (hns : NoSharedCandidate env) :
    ∀ (ix : Nat) (ms : List Nat),
      (ix, ms) ∈ (selectRun env order).1 ↔ (ix, ms) ∈ select_overlap env := by
  have hrun : (selectRun env order).1 = canonRecords env order := by
    have h := selectRun_canonical env hns order [] [] hnd hmem (by simp)
    simpa [selectRun] using h
  have hseq : select_overlap env = canonRecords env (List.range env.n) := by
    have h := selectRun_canonical env hns (List.range env.n) [] []
      (List.nodup_range _) (fun w hw => List.mem_range.mp hw) (by simp)
    simpa [select_overlap, selectRun] using h
  have hmemiff : ∀ w, w ∈ order ↔ w < env.n := by
    intro w
    constructor
    · exact hmem w
    · intro hw
      have hsub : order.toFinset ⊆ Finset.range env.n := by
        intro x hx
        exact Finset.mem_range.mpr (hmem x (List.mem_toFinset.mp hx))
      have hcard : (Finset.range env.n).card ≤ order.toFinset.card := by
        rw [Finset.card_range, List.toFinset_card_of_nodup hnd, hlen]
      have heq := Finset.eq_of_subset_of_card_le hsub hcard
      have hwf : w ∈ order.toFinset := by
        rw [heq]
        exact Finset.mem_range.mpr hw
      exact List.mem_toFinset.mp hwf
  intro ix ms
  rw [hrun, hseq, canonRecords_mem, canonRecords_mem, List.mem_range, hmemiff]

/-- Witness for select_overlap_deterministic: in the two-base environment
detEnv with disjoint candidate sets, the run processing base 1 before base 0
agrees with the sequential run on the record of base 0. -/
theorem select_overlap_deterministic_witness :
    (0, [5]) ∈ (selectRun detEnv [1, 0]).1 ↔
      (0, [5]) ∈ select_overlap detEnv :=
  select_overlap_deterministic detEnv [1, 0] (by decide) (by decide)
    (by decide) (by decide) 0 [5]

end UWP
